import Mathlib

/-!
Verification of the DAS (data availability sampling) research prototype:
an erasure-coded blob transfer between a proposer and a validator.

The development shallowly embeds `src/main.rs`:

* the erasure-coding engine (the external `reed_solomon_erasure` crate,
  `galois_8` module) is modelled from the specification: a systematic
  maximum-distance-separable Reed-Solomon code over GF(256) built from a
  Vandermonde matrix, reduction polynomial `x^8 + x^4 + x^3 + x^2 + 1`
  (0x11D = 285);
* `calculate_sha256` (external `sha2` crate) is modelled from the
  specification as an abstract fixed-length digest: every statement is
  parameterised by the digest function `hash`, which is only ever used
  through equality comparison;
* ed25519 signing (external `ed25519_dalek` crate) is modelled from the
  specification as an abstract signing function carried by an `Identity`;
* `pad_data`, `encode_shards`, the constants, the message enum, and the
  proposer/validator loops are translated directly from the source.

Bytes are `Nat` values below 256; blobs and shard payloads are `List Nat`.
-/

/-- Research constant `DATA_SHARDS` (k) from the source. -/
def DATA_SHARDS : Nat := 4

/-- Research constant `PARITY_SHARDS` (m) from the source. -/
def PARITY_SHARDS : Nat := 2

/-- Research constant `TOTAL_SHARDS` (n = k + m) from the source. -/
def TOTAL_SHARDS : Nat := DATA_SHARDS + PARITY_SHARDS

/-- Modelled from the spec: addition in GF(256) is bytewise XOR. -/
def gfAdd (a b : Nat) : Nat := a ^^^ b

/-- Modelled from the spec: multiplication by `x` in GF(256) with the
reduction polynomial 0x11D used by the `galois_8` field. -/
def xtime (a : Nat) : Nat :=
  let a2 := 2 * a
  if 256 ≤ a2 then a2 ^^^ 285 else a2

/-- Accumulate `x^i * a` over the bit positions `i` of the list that are
set in `x`: the core loop of carry-less GF(256) multiplication. -/
def gfAccum (a x : Nat) : List Nat → Nat
  | [] => 0
  | i :: t => if x.testBit i then (xtime^[i] a) ^^^ gfAccum a x t else gfAccum a x t

/-- Modelled from the spec: carry-less polynomial multiplication in GF(256),
accumulating `x^i * a` for every set bit `i < 8` of `b`. -/
def gfMul (a b : Nat) : Nat := gfAccum a b (List.range 8)

/-- Modelled from the spec: exponentiation in GF(256). -/
def gfPow (a : Nat) : Nat → Nat
  | 0 => 1
  | n + 1 => gfMul a (gfPow a n)

/-- Modelled from the spec: the multiplicative inverse in GF(256), computed
as `a ^ 254` by square-and-multiply (GF(256) has 255 nonzero elements). -/
def gfInv (a : Nat) : Nat :=
  let s1 := gfMul a a
  let s2 := gfMul s1 s1
  let s3 := gfMul s2 s2
  let s4 := gfMul s3 s3
  let s5 := gfMul s4 s4
  let s6 := gfMul s5 s5
  let s7 := gfMul s6 s6
  gfMul s1 (gfMul s2 (gfMul s3 (gfMul s4 (gfMul s5 (gfMul s6 s7)))))

/-- Dot product of two byte vectors over GF(256). -/
def dotGF : List Nat → List Nat → Nat
  | r :: rs, v :: vs => gfMul r v ^^^ dotGF rs vs
  | _, _ => 0

/-- Matrix-vector product over GF(256); a matrix is a list of rows. -/
def matVec (m : List (List Nat)) (v : List Nat) : List Nat := m.map fun row => dotGF row v

/-- Matrix-matrix product over GF(256). -/
def matMul (a b : List (List Nat)) : List (List Nat) :=
  a.map fun row => (b.transpose).map fun col => dotGF row col

/-- Determinant of a 2x2 matrix over GF(256) (characteristic 2: no signs). -/
def det2 (a b c d : Nat) : Nat := gfAdd (gfMul a d) (gfMul b c)

/-- Determinant of a 3x3 matrix over GF(256), given as nine entries. -/
def det3 (a b c d e f g h i : Nat) : Nat :=
  gfAdd (gfMul a (det2 e f h i)) (gfAdd (gfMul b (det2 d f g i)) (gfMul c (det2 d e g h)))

/-- Determinant of a 4x4 matrix over GF(256) by Laplace expansion. -/
def det4 (m : List (List Nat)) : Nat :=
  match m with
  | [[a,b,c,d],[e,f,g,h],[i,j,k,l],[p,q,r,s]] =>
    gfAdd (gfMul a (det3 f g h j k l q r s))
      (gfAdd (gfMul b (det3 e g h i k l p r s))
        (gfAdd (gfMul c (det3 e f h i j l p q s))
          (gfMul d (det3 e f g i j k p q r))))
  | _ => 0

/-- Modelled from the spec: inversion of the 4x4 decoding matrix; returns
`none` when the matrix is singular (the "decoding matrix is singular"
failure of `reconstruct`).  Computed by the adjugate over GF(256). -/
def inv4 (m : List (List Nat)) : Option (List (List Nat)) :=
  match m with
  | [[a,b,c,d],[e,f,g,h],[i,j,k,l],[p,q,r,s]] =>
    let dt := det4 [[a,b,c,d],[e,f,g,h],[i,j,k,l],[p,q,r,s]]
    if dt = 0 then none
    else
      let di := gfInv dt
      some [
        [gfMul di (det3 f g h j k l q r s), gfMul di (det3 b c d j k l q r s),
         gfMul di (det3 b c d f g h q r s), gfMul di (det3 b c d f g h j k l)],
        [gfMul di (det3 e g h i k l p r s), gfMul di (det3 a c d i k l p r s),
         gfMul di (det3 a c d e g h p r s), gfMul di (det3 a c d e g h i k l)],
        [gfMul di (det3 e f h i j l p q s), gfMul di (det3 a b d i j l p q s),
         gfMul di (det3 a b d e f h p q s), gfMul di (det3 a b d e f h i j l)],
        [gfMul di (det3 e f g i j k p q r), gfMul di (det3 a b c i j k p q r),
         gfMul di (det3 a b c e f g p q r), gfMul di (det3 a b c e f g i j k)]]
  | _ => none

/-- Modelled from the spec: the 6x4 Vandermonde matrix with entry `r ^ c`
over GF(256), the starting point of the systematic code construction. -/
def vand : List (List Nat) :=
  (List.range TOTAL_SHARDS).map fun r => (List.range DATA_SHARDS).map fun c => gfPow r c

/-- Modelled from the spec: the systematic 6x4 encoding matrix, namely the
Vandermonde matrix normalised by the inverse of its top 4x4 block (stated
here as a literal; `encMatrix_spec` proves it equal to the construction). -/
def encMatrix : List (List Nat) :=
  [[1,0,0,0],[0,1,0,0],[0,0,1,0],[0,0,0,1],[27,28,18,20],[28,27,20,18]]

/-- Row `i` of a matrix, defaulting to the empty row. -/
def rowGet (m : List (List Nat)) (i : Nat) : List Nat := m.getD i []

/-- Source `pad_data`: extend with zero bytes to a multiple of `k`. -/
def pad_data (data : List Nat) (k : Nat) : List Nat :=
  let remainder := data.length % k
  if remainder ≠ 0 then data ++ List.replicate (k - remainder) 0 else data

/-- Byte `p` of every shard in a list of shards (a "column" of the
bytewise view of the code), out-of-range positions reading 0. -/
def colAt (shards : List (List Nat)) (p : Nat) : List Nat :=
  shards.map fun s => s.getD p 0

/-- Modelled from the spec: one output shard of the code, obtained by
applying one row of the encoding matrix to the data shards bytewise. -/
def applyRow (row : List Nat) (dataShards : List (List Nat)) (shardLen : Nat) : List Nat :=
  (List.range shardLen).map fun p => dotGF row (colAt dataShards p)

/-- Source `encode_shards`: pad the blob to a multiple of `k = 4`, slice it
into 4 equal data shards, and derive the 2 parity shards by the code
(`r.encode` fills the parity rows from the encoding matrix). -/
def encode_shards (data : List Nat) : List (List Nat) :=
  let padded := pad_data data DATA_SHARDS
  let shardLen := padded.length / DATA_SHARDS
  let ds := (List.range DATA_SHARDS).map fun i => (padded.drop (i * shardLen)).take shardLen
  let ps := (List.range PARITY_SHARDS).map fun j => applyRow (rowGet encMatrix (DATA_SHARDS + j)) ds shardLen
  ds ++ ps

/-- The present entries of an option-shard vector, in index order, as the
crate sees them when selecting rows of the decoding matrix. -/
def presentEntries (shards : List (Option (List Nat))) : List (Nat × List Nat) :=
  shards.enum.filterMap fun e => e.2.map fun d => (e.1, d)

/-- Modelled from the spec: `reconstruct` of the erasure-coding engine.
Requires at least `k = 4` present shards, else fails; selects the first 4
present entries, inverts the corresponding 4 rows of the encoding matrix
(failing if singular), recovers the 4 data shards bytewise, keeps every
present shard unchanged and recomputes the missing ones. -/
def reconstructShards (shards : List (Option (List Nat))) : Option (List (List Nat)) :=
  let present := presentEntries shards
  if present.length < DATA_SHARDS then none
  else
    let picks := present.take DATA_SHARDS
    let decodeM := picks.map fun e => rowGet encMatrix e.1
    (inv4 decodeM).map fun dm =>
      let shardLen := ((picks.headD (0, [])).2).length
      let pickPayloads := picks.map Prod.snd
      let dataRec := (List.range DATA_SHARDS).map fun j => applyRow (rowGet dm j) pickPayloads shardLen
      (List.range TOTAL_SHARDS).map fun i =>
        (shards.getD i none).getD
          (if i < DATA_SHARDS then dataRec.getD i []
           else applyRow (rowGet encMatrix i) dataRec shardLen)

/-- Restrict the full shard list to a subset of indices, as an
option-shard vector of length `n = 6` (kept indices present). -/
def maskShards (keep : List Nat) (shards : List (List Nat)) : List (Option (List Nat)) :=
  (List.range TOTAL_SHARDS).map fun i => if i ∈ keep then some (shards.getD i []) else none

/-- The 15 four-element subsets of `{0,...,5}` in ascending order: every
possible set of `k = 4` distinct shard indices out of `n = 6`. -/
def subsets15 : List (List Nat) :=
  [[0,1,2,3],[0,1,2,4],[0,1,2,5],[0,1,3,4],[0,1,3,5],[0,1,4,5],[0,2,3,4],
   [0,2,3,5],[0,2,4,5],[0,3,4,5],[1,2,3,4],[1,2,3,5],[1,2,4,5],[1,3,4,5],[2,3,4,5]]

/-- The decoding matrix for a set of shard indices: the corresponding rows
of the encoding matrix. -/
def decodeOf (idxs : List Nat) : List (List Nat) := idxs.map fun i => rowGet encMatrix i

/-- The length-4 vector with `x` at position `j` and 0 elsewhere. -/
def unitVec (j x : Nat) : List Nat := (List.range 4).map fun i => if i = j then x else 0

/-- The inverses of the 15 decoding matrices, tabulated as literals keyed
by the index subset; `allSubsetsOK` verifies every entry against `inv4`. -/
def invAssoc : List (List Nat × List (List Nat)) :=
  [([0,1,2,3], [[1,0,0,0],[0,1,0,0],[0,0,1,0],[0,0,0,1]]),
   ([0,1,2,4], [[1,0,0,0],[0,1,0,0],[0,0,1,0],[200,82,123,224]]),
   ([0,1,2,5], [[1,0,0,0],[0,1,0,0],[0,0,1,0],[245,143,187,192]]),
   ([0,1,3,4], [[1,0,0,0],[0,1,0,0],[143,245,187,192],[0,0,1,0]]),
   ([0,1,3,5], [[1,0,0,0],[0,1,0,0],[82,200,123,224],[0,0,1,0]]),
   ([0,1,4,5], [[1,0,0,0],[0,1,0,0],[141,246,123,1],[246,141,1,123]]),
   ([0,2,3,4], [[1,0,0,0],[70,143,104,160],[0,1,0,0],[0,0,1,0]]),
   ([0,2,3,5], [[1,0,0,0],[166,210,245,128],[0,1,0,0],[0,0,1,0]]),
   ([0,2,4,5], [[1,0,0,0],[143,211,142,211],[0,1,0,0],[179,143,201,244]]),
   ([0,3,4,5], [[1,0,0,0],[245,105,105,244],[41,245,142,83],[0,1,0,0]]),
   ([1,2,3,4], [[166,245,210,128],[1,0,0,0],[0,1,0,0],[0,0,1,0]]),
   ([1,2,3,5], [[70,104,143,160],[1,0,0,0],[0,1,0,0],[0,0,1,0]]),
   ([1,2,4,5], [[245,105,244,105],[1,0,0,0],[0,1,0,0],[41,245,83,142]]),
   ([1,3,4,5], [[143,211,211,142],[1,0,0,0],[179,143,244,201],[0,1,0,0]]),
   ([2,3,4,5], [[208,107,104,210],[107,208,210,104],[1,0,0,0],[0,1,0,0]])]

/-- The tabulated inverse of the decoding matrix for one index subset. -/
def invOf (idxs : List Nat) : List (List Nat) :=
  ((invAssoc.find? fun e => e.1 = idxs).map Prod.snd).getD []

/-- Decidable core of the MDS property for one index subset: `inv4` of the
decoding matrix yields exactly the tabulated inverse, which is 4x4 and
undoes encoding on every unit vector with a nibble entry (low or high). -/
def subsetOK (idxs : List Nat) : Prop :=
  inv4 (decodeOf idxs) = some (invOf idxs) ∧
  (invOf idxs).length = 4 ∧
  ∀ j < 4, ∀ x < 16,
    matVec (invOf idxs) (matVec (decodeOf idxs) (unitVec j x)) = unitVec j x ∧
    matVec (invOf idxs) (matVec (decodeOf idxs) (unitVec j (16 * x))) = unitVec j (16 * x)

instance subsetOK_decidable (idxs : List Nat) : Decidable (subsetOK idxs) := by
  unfold subsetOK
  infer_instance

/-- Shard length of a blob: padded length divided by `k`. -/
def lenOf (data : List Nat) : Nat := (pad_data data DATA_SHARDS).length / DATA_SHARDS

/-- Data shard `i` of a blob: the `i`-th slice of the padded blob. -/
def sliceDS (data : List Nat) (i : Nat) : List Nat :=
  ((pad_data data DATA_SHARDS).drop (i * lenOf data)).take (lenOf data)

/-- The four data shards of a blob. -/
def dsOf (data : List Nat) : List (List Nat) := (List.range DATA_SHARDS).map (sliceDS data)

/-- Source `P2PMessage`: the three wire message variants. -/
inductive P2PMessage : Type
  | Handshake (pubkey : List Nat) (sig : List Nat) (ts : Nat)
  | NaiveTransfer (filename : String) (data : List Nat) (checksum : String)
  | DasShard (filename : String) (original_len : Nat) (index : Nat) (data : List Nat)
      (full_file_checksum : String)
deriving DecidableEq

/-- Source `ResearchMode`: the proposer strategy selector. -/
inductive ResearchMode : Type
  | naive
  | dasFull
  | dasSample
deriving DecidableEq

/-- Modelled from the spec: an `Identity` holds a verification key and a
signing function over arbitrary byte strings (`ed25519_dalek` is an
external crate; only the message structure matters here). -/
structure Identity : Type where
  pubkey : List Nat
  sign : List Nat → List Nat

/-- Big-endian byte encoding of an unsigned 64-bit value, modelling
`u64::to_be_bytes` from the source handshake. -/
def u64BeBytes (n : Nat) : List Nat := (List.range 8).map fun i => n / 256 ^ (7 - i) % 256

/-- Source `perform_handshake`: sign the fixed timestamp 1000 and send
exactly one Handshake message carrying the public key, the signature over
the timestamp bytes, and the timestamp.  Nothing is received or verified. -/
def perform_handshake (id : Identity) : P2PMessage :=
  P2PMessage.Handshake id.pubkey (id.sign (u64BeBytes 1000)) 1000

/-- A per-filename shard map: association list from shard index to payload,
modelling the inner `HashMap<usize, Vec<u8>>`. -/
abbrev ShardMap := List (Nat × List Nat)

/-- The validator buffer: association list from filename to shard map,
modelling the shared `HashMap<String, HashMap<usize, Vec<u8>>>`. -/
abbrev Buffer := List (String × ShardMap)

/-- `HashMap::insert` on a shard map: overwrite the payload when the index
is already present (last write wins), append otherwise. -/
def mapInsert (i : Nat) (v : List Nat) : ShardMap → ShardMap
  | [] => [(i, v)]
  | e :: t => if e.1 = i then (i, v) :: t else e :: mapInsert i v t

/-- Lookup of a filename's shard map, defaulting to the empty map
(`lock.entry(filename).or_insert(HashMap::new())`). -/
def bufGet : Buffer → String → ShardMap
  | [], _ => []
  | e :: t, f => if e.1 = f then e.2 else bufGet t f

/-- Store a filename's shard map back into the buffer. -/
def bufSet : Buffer → String → ShardMap → Buffer
  | [], f, m => [(f, m)]
  | e :: t, f, m => if e.1 = f then (f, m) :: t else e :: bufSet t f m

/-- Observable validator events: console reports and file writes. -/
inductive Event : Type
  | secured
  | naiveOk (filename : String)
  | naiveCorrupt (filename : String)
  | reconAttempt (filename : String)
  | reconOk (filename : String)
  | fileWrite (name : String) (contents : List Nat)
  | availability (filename : String)
deriving DecidableEq

/-- The fill loop `for (idx, d) in map.iter() { shards[*idx] = Some(d); }`:
writes every stored payload into a vector of exactly `n = 6` slots at the
position given by its index; an index at or above 6 is an out-of-bounds
vector write, modelled as `none` (a panic). -/
def fillShards (m : ShardMap) : Option (List (Option (List Nat))) :=
  m.foldl
    (fun acc e =>
      acc.bind fun v => if e.1 < TOTAL_SHARDS then some (v.set e.1 (some e.2)) else none)
    (some (List.replicate TOTAL_SHARDS none))

/-- One iteration of the validator read loop on a parsed message (the
`match msg` block of `run_validator`).  Returns `none` when the code
panics (out-of-bounds shard index), otherwise the new buffer and the
events produced.  `hash` abstracts `calculate_sha256`. -/
def stepMsg (hash : List Nat → String) (st : Buffer) : P2PMessage → Option (Buffer × List Event)
  | P2PMessage.Handshake _ _ _ => some (st, [])
  | P2PMessage.NaiveTransfer f d chk =>
    if hash d = chk then
      some (st, [Event.naiveOk f, Event.fileWrite (String.append "recv_" f) d])
    else some (st, [Event.naiveCorrupt f])
  | P2PMessage.DasShard f olen idx d chk =>
    let m := mapInsert idx d (bufGet st f)
    let st1 := bufSet st f m
    if DATA_SHARDS ≤ m.length then
      (fillShards m).bind fun sh =>
        (reconstructShards sh).elim (some (st1, [Event.reconAttempt f])) fun rc =>
          let reconstructed := (rc.take DATA_SHARDS).flatten
          let evs :=
            if olen ≤ reconstructed.length then
              if hash (reconstructed.take olen) = chk then
                [Event.reconAttempt f, Event.reconOk f,
                 Event.fileWrite (String.append "reconstructed_" f) (reconstructed.take olen)]
              else [Event.reconAttempt f]
            else [Event.reconAttempt f]
          some (bufSet st1 f [], evs)
    else some (st1, [])

/-- One received line, as the validator classifies it: blank (skipped), a
line parsing to a message, or a malformed line (a serde error). -/
inductive LineItem : Type
  | blank
  | msg (m : P2PMessage)
  | malformed

/-- Outcome of one connection's read loop. -/
inductive ConnResult : Type
  | ok (st : Buffer) (events : List Event)
  | parseErr (st : Buffer) (events : List Event)
  | panicked (events : List Event)

/-- The validator read loop over the lines of one connection: blank lines
are skipped with no effect; a malformed line aborts with an error (the `?`
operator on `serde_json::from_str`), leaving the rest of the stream
unread; a panic aborts everything. -/
def runLines (hash : List Nat → String) (st : Buffer) : List LineItem → ConnResult
  | [] => ConnResult.ok st []
  | LineItem.blank :: rest => runLines hash st rest
  | LineItem.malformed :: _ => ConnResult.parseErr st []
  | LineItem.msg m :: rest =>
    (stepMsg hash st m).elim (ConnResult.panicked []) fun r =>
      match runLines hash r.1 rest with
      | ConnResult.ok st2 e2 => ConnResult.ok st2 (r.2 ++ e2)
      | ConnResult.parseErr st2 e2 => ConnResult.parseErr st2 (r.2 ++ e2)
      | ConnResult.panicked e2 => ConnResult.panicked (r.2 ++ e2)

/-- The light-client check run after a connection's stream ends: exactly
one availability report for every buffer entry that is non-empty and
below the reconstruction threshold. -/
def lightReport (st : Buffer) : List Event :=
  (st.filter fun e => !e.2.isEmpty && decide (e.2.length < DATA_SHARDS)).map
    fun e => Event.availability e.1

/-- One full validator connection: the handshake send (which never fails
and never inspects the peer, yielding the "Session Secured" report), the
read loop, and - only when the stream ends normally - the light-client
check. -/
def runConn (hash : List Nat → String) (st : Buffer) (lines : List LineItem) : ConnResult :=
  match runLines hash st lines with
  | ConnResult.ok st1 evs => ConnResult.ok st1 (Event.secured :: (evs ++ lightReport st1))
  | ConnResult.parseErr st1 evs => ConnResult.parseErr st1 (Event.secured :: evs)
  | ConnResult.panicked evs => ConnResult.panicked (Event.secured :: evs)

/-- Outcome of the validator accept loop. -/
inductive VResult : Type
  | listening (st : Buffer) (events : List Event)
  | errored (events : List Event)
  | panicked (events : List Event)

/-- Source `run_validator`: accept connections sequentially over one
shared buffer; a parse error propagates out of the whole accept loop (the
`?` returns from `run_validator`), so no later connection is processed; a
panic likewise ends the process. -/
def run_validator (hash : List Nat → String) (st : Buffer) : List (List LineItem) → VResult
  | [] => VResult.listening st []
  | conn :: rest =>
    match runConn hash st conn with
    | ConnResult.ok st1 evs =>
      match run_validator hash st1 rest with
      | VResult.listening st2 e2 => VResult.listening st2 (evs ++ e2)
      | VResult.errored e2 => VResult.errored (evs ++ e2)
      | VResult.panicked e2 => VResult.panicked (evs ++ e2)
    | ConnResult.parseErr _ evs => VResult.errored evs
    | ConnResult.panicked evs => VResult.panicked evs

/-- The events of a validator outcome. -/
def VResult.events : VResult → List Event
  | VResult.listening _ evs => evs
  | VResult.errored evs => evs
  | VResult.panicked evs => evs

/-- Source `run_proposer`: the sequence of messages sent for one blob
under a strategy.  `perm` stands for the shuffled index order produced by
`rand::shuffle` (external), constrained to be a permutation of `0..6` in
the theorems; the handshake always goes out first, then either the whole
blob (naive), the first `k = 4` shuffled shards (full), or the first 2
shuffled shards (sampling). -/
def run_proposer (hash : List Nat → String) (id : Identity) (filename : String)
    (data : List Nat) (mode : ResearchMode) (perm : List Nat) : List P2PMessage :=
  perform_handshake id ::
    match mode with
    | ResearchMode.naive => [P2PMessage.NaiveTransfer filename data (hash data)]
    | ResearchMode.dasFull =>
      (perm.take DATA_SHARDS).map fun i =>
        P2PMessage.DasShard filename data.length i ((encode_shards data).getD i []) (hash data)
    | ResearchMode.dasSample =>
      (perm.take 2).map fun i =>
        P2PMessage.DasShard filename data.length i ((encode_shards data).getD i []) (hash data)

/-- The events of a connection outcome. -/
def ConnResult.events : ConnResult → List Event
  | ConnResult.ok _ evs => evs
  | ConnResult.parseErr _ evs => evs
  | ConnResult.panicked evs => evs

/-- Whether a wire message is a Handshake. -/
def isHandshake : P2PMessage → Bool
  | P2PMessage.Handshake _ _ _ => true
  | _ => false

set_option maxRecDepth 10000 in
/-- The inverse of the top 4x4 Vandermonde block, evaluated. -/
theorem vandTop_inv :
    inv4 (vand.take 4) =
      some [[1,0,0,0],[123,1,142,244],[0,122,244,142],[122,122,122,122]] := by decide

set_option maxRecDepth 10000 in
/-- The literal `encMatrix` is exactly the Vandermonde matrix times the
inverse of its top 4x4 block. -/
theorem encMatrix_spec : encMatrix = matMul vand ((inv4 (vand.take 4)).getD []) := by
  rw [vandTop_inv]
  decide

/-- The code is systematic: the top 4 rows of the encoding matrix form the
identity, so the first `k` shards are the data shards unmodified. -/
theorem encMatrix_top_identity :
    encMatrix.take 4 = [[1,0,0,0],[0,1,0,0],[0,0,1,0],[0,0,0,1]] := rfl

set_option maxRecDepth 10000 in
set_option maxHeartbeats 8000000 in
/-- Every 4-element subset of the 6 shard indices yields an invertible
decoding matrix whose inverse undoes encoding on every unit vector with a
nibble entry: the concrete kernel of the MDS property. -/
theorem allSubsetsOK : ∀ s ∈ subsets15, subsetOK s := by decide

set_option maxRecDepth 10000 in
/-- Every byte splits as the XOR of its high and low nibble parts. -/
theorem nibbleSplit : ∀ b < 256, (16 * (b / 16)) ^^^ (b % 16) = b := by decide

/-- Iterating `xtime` fixes 0. -/
theorem xtime_iter_zero (i : Nat) : xtime^[i] 0 = 0 :=
  Function.iterate_fixed rfl i

/-- The GF(256) accumulator vanishes when its first factor is 0. -/
theorem gfAccum_zero_left (x : Nat) (l : List Nat) : gfAccum 0 x l = 0 := by
  induction l with
  | nil => rfl
  | cons i t ih =>
    show (if x.testBit i then (xtime^[i] 0) ^^^ gfAccum 0 x t else gfAccum 0 x t) = 0
    rw [ih, xtime_iter_zero]
    split <;> rfl

/-- The GF(256) accumulator vanishes when its second factor is 0. -/
theorem gfAccum_zero_right (a : Nat) (l : List Nat) : gfAccum a 0 l = 0 := by
  induction l with
  | nil => rfl
  | cons i t ih =>
    show (if (0 : Nat).testBit i then (xtime^[i] a) ^^^ gfAccum a 0 t else gfAccum a 0 t) = 0
    rw [ih, Nat.zero_testBit]
    simp

/-- Multiplication by 0 on the left is 0 in GF(256). -/
theorem gfMul_zero_left (b : Nat) : gfMul 0 b = 0 := gfAccum_zero_left b (List.range 8)

/-- Multiplication by 0 on the right is 0 in GF(256). -/
theorem gfMul_zero_right (a : Nat) : gfMul a 0 = 0 := gfAccum_zero_right a (List.range 8)

set_option maxRecDepth 2000 in
/-- Multiplication by 1 on the left is the identity on bytes. -/
theorem gfMul_one_left : ∀ b < 256, gfMul 1 b = b := by decide

/-- Cancelling a common XOR summand on both sides. -/
theorem xor_xor_cancel (t x y : Nat) : (t ^^^ x) ^^^ (t ^^^ y) = x ^^^ y := by
  rw [Nat.xor_comm t x, Nat.xor_assoc, ← Nat.xor_assoc t t y, Nat.xor_self, Nat.zero_xor]

/-- Regrouping a XOR of four terms. -/
theorem xor_mix (p q s t : Nat) : (p ^^^ q) ^^^ (s ^^^ t) = (p ^^^ s) ^^^ (q ^^^ t) := by
  rw [Nat.xor_assoc p q, Nat.xor_assoc p s]
  congr 1
  rw [← Nat.xor_assoc q s t, Nat.xor_comm q s, Nat.xor_assoc s q t]

/-- The GF(256) accumulator is additive in its second factor. -/
theorem gfAccum_xor (a b c : Nat) (l : List Nat) :
    gfAccum a (b ^^^ c) l = gfAccum a b l ^^^ gfAccum a c l := by
  induction l with
  | nil => simp [gfAccum]
  | cons i t ih =>
    show (if (b ^^^ c).testBit i then (xtime^[i] a) ^^^ gfAccum a (b ^^^ c) t else gfAccum a (b ^^^ c) t) =
      (if b.testBit i then (xtime^[i] a) ^^^ gfAccum a b t else gfAccum a b t) ^^^
      (if c.testBit i then (xtime^[i] a) ^^^ gfAccum a c t else gfAccum a c t)
    rw [ih, Nat.testBit_xor]
    cases hb : b.testBit i <;> cases hc : c.testBit i
    · rfl
    · show (xtime^[i] a) ^^^ (gfAccum a b t ^^^ gfAccum a c t) =
        gfAccum a b t ^^^ ((xtime^[i] a) ^^^ gfAccum a c t)
      rw [← Nat.xor_assoc, Nat.xor_comm (xtime^[i] a) (gfAccum a b t), Nat.xor_assoc]
    · show (xtime^[i] a) ^^^ (gfAccum a b t ^^^ gfAccum a c t) =
        ((xtime^[i] a) ^^^ gfAccum a b t) ^^^ gfAccum a c t
      rw [← Nat.xor_assoc]
    · show gfAccum a b t ^^^ gfAccum a c t =
        ((xtime^[i] a) ^^^ gfAccum a b t) ^^^ ((xtime^[i] a) ^^^ gfAccum a c t)
      rw [xor_xor_cancel]

/-- GF(256) multiplication distributes over XOR in its second argument. -/
theorem gfMul_xor_right (a b c : Nat) : gfMul a (b ^^^ c) = gfMul a b ^^^ gfMul a c :=
  gfAccum_xor a b c (List.range 8)

/-- The GF(256) dot product distributes over a bytewise XOR of vectors of
equal length. -/
theorem dotGF_xor (row : List Nat) :
    ∀ u w : List Nat, u.length = w.length →
      dotGF row (List.zipWith HXor.hXor u w) = dotGF row u ^^^ dotGF row w := by
  induction row with
  | nil => intro u w _; simp [dotGF]
  | cons r rs ih =>
    intro u w hlen
    cases u with
    | nil =>
      cases w with
      | nil => simp [dotGF]
      | cons b ws => simp at hlen
    | cons a us =>
      cases w with
      | nil => simp at hlen
      | cons b ws =>
        show dotGF (r :: rs) ((a ^^^ b) :: List.zipWith HXor.hXor us ws) = _
        show gfMul r (a ^^^ b) ^^^ dotGF rs (List.zipWith HXor.hXor us ws) =
          (gfMul r a ^^^ dotGF rs us) ^^^ (gfMul r b ^^^ dotGF rs ws)
        rw [ih us ws (by simpa using hlen), gfMul_xor_right]
        exact xor_mix _ _ _ _

/-- Matrix application distributes over a bytewise XOR of vectors of equal
length. -/
theorem matVec_xor (m : List (List Nat)) (u w : List Nat) (hlen : u.length = w.length) :
    matVec m (List.zipWith HXor.hXor u w) = List.zipWith HXor.hXor (matVec m u) (matVec m w) := by
  induction m with
  | nil => rfl
  | cons row rows ih =>
    show dotGF row (List.zipWith HXor.hXor u w) :: matVec rows (List.zipWith HXor.hXor u w) = _
    rw [ih, dotGF_xor row u w hlen]
    rfl

theorem presentEntries_mask (keep : List Nat) (shards : List (List Nat)) :
    presentEntries (maskShards keep shards) =
      ((List.range 6).filter (fun i => i ∈ keep)).map (fun i => (i, shards.getD i [])) := by
  by_cases h0 : 0 ∈ keep <;> by_cases h1 : 1 ∈ keep <;> by_cases h2 : 2 ∈ keep <;>
    by_cases h3 : 3 ∈ keep <;> by_cases h4 : 4 ∈ keep <;> by_cases h5 : 5 ∈ keep <;>
    simp [presentEntries, maskShards, TOTAL_SHARDS, DATA_SHARDS, PARITY_SHARDS,
      List.filter, h0, h1, h2, h3, h4, h5, List.range_succ, List.enum, List.enumFrom]

set_option linter.unreachableTactic false in
theorem filter_take4_subsets15 (keep : List Nat)
    (hk : 4 ≤ ((List.range 6).filter (fun i => i ∈ keep)).length) :
    ((List.range 6).filter (fun i => i ∈ keep)).take 4 ∈ subsets15 := by
  by_cases h0 : 0 ∈ keep <;> by_cases h1 : 1 ∈ keep <;> by_cases h2 : 2 ∈ keep <;>
    by_cases h3 : 3 ∈ keep <;> by_cases h4 : 4 ∈ keep <;> by_cases h5 : 5 ∈ keep <;>
    simp [List.filter, h0, h1, h2, h3, h4, h5, List.range_succ, subsets15] at hk ⊢ <;>
    omega

/-- Shape of the subsets: each one lists 4 indices below 6, without
repetition. -/
theorem subsets15_shape : ∀ s ∈ subsets15, s.length = 4 ∧ s.Nodup ∧ ∀ i ∈ s, i < 6 := by decide

/-- A list of length 4 is a literal 4-element list. -/
theorem length4_shape {α : Type} (l : List α) (h : l.length = 4) :
    ∃ a b c d, l = [a, b, c, d] := by
  cases l with
  | nil => simp at h
  | cons a l1 =>
    cases l1 with
    | nil => simp at h
    | cons b l2 =>
      cases l2 with
      | nil => simp at h
      | cons c l3 =>
        cases l3 with
        | nil => simp at h
        | cons d l4 =>
          cases l4 with
          | nil => exact ⟨a, b, c, d, rfl⟩
          | cons e l5 => simp at h

/-- Zipping two images of the same list pointwise is a single map. -/
theorem zipWith_map_same (f : Nat → Nat → Nat) (g h : Nat → Nat) (l : List Nat) :
    List.zipWith f (l.map g) (l.map h) = l.map fun x => f (g x) (h x) := by
  induction l with
  | nil => rfl
  | cons a t ih => simp [ih]

/-- Length of a matrix-vector product. -/
theorem matVec_length (m : List (List Nat)) (v : List Nat) : (matVec m v).length = m.length := by
  simp [matVec]

/-- Packaged MDS fact for one subset: the tabulated inverse is what `inv4`
returns, and it undoes encoding on every unit vector with an arbitrary
byte entry. -/
theorem subset_recover (idxs : List Nat) (hmem : idxs ∈ subsets15) :
    inv4 (decodeOf idxs) = some (invOf idxs) ∧ (invOf idxs).length = 4 ∧
      ∀ j < 4, ∀ w < 256,
        matVec (invOf idxs) (matVec (decodeOf idxs) (unitVec j w)) = unitVec j w := by
  have hok := allSubsetsOK idxs hmem
  unfold subsetOK at hok
  obtain ⟨hinv, hlen, hball⟩ := hok
  refine ⟨hinv, hlen, ?_⟩
  intro j hj w hw
  have hlow := (hball j hj (w % 16) (by omega)).1
  have hhigh := (hball j hj (w / 16) (by omega)).2
  have hnib : List.zipWith HXor.hXor (unitVec j (16 * (w / 16))) (unitVec j (w % 16)) =
      unitVec j w := by
    unfold unitVec
    rw [zipWith_map_same]
    refine List.map_congr_left fun i _ => ?_
    by_cases hij : i = j
    · rw [if_pos hij, if_pos hij, if_pos hij, nibbleSplit w hw]
    · rw [if_neg hij, if_neg hij, if_neg hij]; simp
  calc matVec (invOf idxs) (matVec (decodeOf idxs) (unitVec j w))
      = matVec (invOf idxs) (matVec (decodeOf idxs)
          (List.zipWith HXor.hXor (unitVec j (16 * (w / 16))) (unitVec j (w % 16)))) := by
        rw [hnib]
    _ = matVec (invOf idxs) (List.zipWith HXor.hXor
          (matVec (decodeOf idxs) (unitVec j (16 * (w / 16))))
          (matVec (decodeOf idxs) (unitVec j (w % 16)))) := by
        rw [matVec_xor _ _ _ (by simp [unitVec])]
    _ = List.zipWith HXor.hXor
          (matVec (invOf idxs) (matVec (decodeOf idxs) (unitVec j (16 * (w / 16)))))
          (matVec (invOf idxs) (matVec (decodeOf idxs) (unitVec j (w % 16)))) := by
        rw [matVec_xor _ _ _ (by rw [matVec_length, matVec_length])]
    _ = List.zipWith HXor.hXor (unitVec j (16 * (w / 16))) (unitVec j (w % 16)) := by
        rw [hhigh, hlow]
    _ = unitVec j w := hnib

/-- Unit vectors at the four positions, as literal lists. -/
theorem unitVec_zero (x : Nat) : unitVec 0 x = [x, 0, 0, 0] := rfl

theorem unitVec_one (x : Nat) : unitVec 1 x = [0, x, 0, 0] := rfl

theorem unitVec_two (x : Nat) : unitVec 2 x = [0, 0, x, 0] := rfl

theorem unitVec_three (x : Nat) : unitVec 3 x = [0, 0, 0, x] := rfl

/-- The inverse decoding matrix undoes encoding on an arbitrary byte
vector, by decomposing the vector into the four unit vectors. -/
theorem recover_vec (idxs : List Nat) (dm : List (List Nat))
    (hunit : ∀ j < 4, ∀ w < 256, matVec dm (matVec (decodeOf idxs) (unitVec j w)) = unitVec j w)
    (w0 w1 w2 w3 : Nat) (h0 : w0 < 256) (h1 : w1 < 256) (h2 : w2 < 256) (h3 : w3 < 256) :
    matVec dm (matVec (decodeOf idxs) [w0, w1, w2, w3]) = [w0, w1, w2, w3] := by
  have hu0 := hunit 0 (by omega) w0 h0
  have hu1 := hunit 1 (by omega) w1 h1
  have hu2 := hunit 2 (by omega) w2 h2
  have hu3 := hunit 3 (by omega) w3 h3
  rw [unitVec_zero] at hu0
  rw [unitVec_one] at hu1
  rw [unitVec_two] at hu2
  rw [unitVec_three] at hu3
  have hv3 : List.zipWith HXor.hXor [0, 0, w2, 0] [(0 : Nat), 0, 0, w3] = [0, 0, w2, w3] := by
    simp
  have hv2 : List.zipWith HXor.hXor [0, w1, 0, 0] [(0 : Nat), 0, w2, w3] = [0, w1, w2, w3] := by
    simp
  have hv1 : List.zipWith HXor.hXor [w0, 0, 0, 0] [(0 : Nat), w1, w2, w3] = [w0, w1, w2, w3] := by
    simp
  have s23 : matVec dm (matVec (decodeOf idxs) [0, 0, w2, w3]) = [0, 0, w2, w3] := by
    rw [← hv3, matVec_xor _ _ _ (by simp),
      matVec_xor _ _ _ (by rw [matVec_length, matVec_length]), hu2, hu3, hv3]
  have s123 : matVec dm (matVec (decodeOf idxs) [0, w1, w2, w3]) = [0, w1, w2, w3] := by
    rw [← hv2, matVec_xor _ _ _ (by simp),
      matVec_xor _ _ _ (by rw [matVec_length, matVec_length]), hu1, s23, hv2]
  rw [← hv1, matVec_xor _ _ _ (by simp),
    matVec_xor _ _ _ (by rw [matVec_length, matVec_length]), hu0, s123, hv1]

theorem pad_data_length_mod (data : List Nat) (k : Nat) (hk : 0 < k) :
    (pad_data data k).length % k = 0 := by
  unfold pad_data
  dsimp only
  split
  · have hdm := Nat.div_add_mod data.length k
    have hrlt : data.length % k < k := Nat.mod_lt _ hk
    have heq : data.length + (k - data.length % k) = k * (data.length / k) + k := by omega
    rw [List.length_append, List.length_replicate, heq, Nat.add_mod, Nat.mul_mod_right,
      Nat.mod_self]
    simp
  · omega

theorem pad_data_take (data : List Nat) (k : Nat) :
    (pad_data data k).take data.length = data := by
  unfold pad_data
  dsimp only
  split
  · exact List.take_left data _
  · exact List.take_length data

theorem pad_data_le (data : List Nat) (k : Nat) : data.length ≤ (pad_data data k).length := by
  unfold pad_data
  dsimp only
  split
  · rw [List.length_append]; omega
  · exact Nat.le_refl _

theorem pad_data_bytes (data : List Nat) (k : Nat) (h : ∀ b ∈ data, b < 256) :
    ∀ b ∈ pad_data data k, b < 256 := by
  unfold pad_data
  dsimp only
  split
  · intro b hb
    rcases List.mem_append.1 hb with hb1 | hb2
    · exact h b hb1
    · rw [List.eq_of_mem_replicate hb2]; omega
  · exact h

theorem four_mul_lenOf (data : List Nat) : 4 * lenOf data = (pad_data data DATA_SHARDS).length := by
  have hmod := pad_data_length_mod data DATA_SHARDS (by norm_num [DATA_SHARDS])
  unfold lenOf DATA_SHARDS at *
  omega

theorem sliceDS_length (data : List Nat) (i : Nat) (hi : i < 4) :
    (sliceDS data i).length = lenOf data := by
  have h4 := four_mul_lenOf data
  unfold sliceDS
  rw [List.length_take, List.length_drop]
  interval_cases i <;> omega

theorem sliceDS_byte_lt (data : List Nat) (hbytes : ∀ b ∈ data, b < 256) (i p : Nat)
    (hi : i < 4) (hp : p < lenOf data) : (sliceDS data i).getD p 0 < 256 := by
  have hlen : p < (sliceDS data i).length := by rw [sliceDS_length data i hi]; exact hp
  rw [List.getD_eq_getElem _ _ hlen]
  apply pad_data_bytes data DATA_SHARDS hbytes
  have hmem := List.getElem_mem hlen
  unfold sliceDS at hmem
  exact List.drop_subset _ _ (List.take_subset _ _ hmem)

theorem four_slices (l : List Nat) (L : Nat) (hlen : l.length = 4 * L) :
    ((l.drop (0 * L)).take L) ++ (((l.drop (1 * L)).take L) ++
      (((l.drop (2 * L)).take L) ++ (((l.drop (3 * L)).take L) ++ []))) = l := by
  have h1 : (1 : Nat) * L = L := by ring
  have h2 : (2 : Nat) * L = L + L := by ring
  have h3 : (3 : Nat) * L = L + L + L := by ring
  rw [Nat.zero_mul, h1, h2, h3, List.drop_zero, List.append_nil]
  conv_rhs => rw [← List.take_append_drop L l]
  congr 1
  conv_rhs => rw [← List.take_append_drop L (l.drop L)]
  rw [List.drop_drop]
  congr 1
  conv_rhs => rw [← List.take_append_drop L (l.drop (L + L))]
  rw [List.drop_drop]
  congr 1
  apply List.take_of_length_le
  rw [List.length_drop]
  omega

theorem flatten_dsOf (data : List Nat) : (dsOf data).flatten = pad_data data DATA_SHARDS := by
  have h4 := four_mul_lenOf data
  have hr : List.range DATA_SHARDS = [0, 1, 2, 3] := rfl
  unfold dsOf
  rw [hr]
  simp only [List.map_cons, List.map_nil, List.flatten_cons, List.flatten_nil]
  unfold sliceDS
  exact four_slices _ _ (by omega)

theorem encode_shards_eq (data : List Nat) :
    encode_shards data = [sliceDS data 0, sliceDS data 1, sliceDS data 2, sliceDS data 3,
      applyRow (rowGet encMatrix 4) (dsOf data) (lenOf data),
      applyRow (rowGet encMatrix 5) (dsOf data) (lenOf data)] := rfl

theorem applyRow_getD (row : List Nat) (dataShards : List (List Nat)) (shardLen p : Nat)
    (hp : p < shardLen) :
    (applyRow row dataShards shardLen).getD p 0 = dotGF row (colAt dataShards p) := by
  have hl : p < (applyRow row dataShards shardLen).length := by
    simp [applyRow]
    omega
  rw [List.getD_eq_getElem _ _ hl]
  simp [applyRow]

theorem applyRow_length (row : List Nat) (dataShards : List (List Nat)) (shardLen : Nat) :
    (applyRow row dataShards shardLen).length = shardLen := by
  simp [applyRow]

theorem colAt_dsOf (data : List Nat) (p : Nat) :
    colAt (dsOf data) p = [(sliceDS data 0).getD p 0, (sliceDS data 1).getD p 0,
      (sliceDS data 2).getD p 0, (sliceDS data 3).getD p 0] := rfl

theorem encode_byte (data : List Nat) (hbytes : ∀ b ∈ data, b < 256) (i p : Nat)
    (hi : i < 6) (hp : p < lenOf data) :
    ((encode_shards data).getD i []).getD p 0 = dotGF (rowGet encMatrix i) (colAt (dsOf data) p) := by
  have hb0 := sliceDS_byte_lt data hbytes 0 p (by omega) hp
  have hb1 := sliceDS_byte_lt data hbytes 1 p (by omega) hp
  have hb2 := sliceDS_byte_lt data hbytes 2 p (by omega) hp
  have hb3 := sliceDS_byte_lt data hbytes 3 p (by omega) hp
  rw [encode_shards_eq, colAt_dsOf]
  interval_cases i
  · show (sliceDS data 0).getD p 0 = dotGF [1,0,0,0] _
    show (sliceDS data 0).getD p 0 = gfMul 1 ((sliceDS data 0).getD p 0) ^^^
      (gfMul 0 ((sliceDS data 1).getD p 0) ^^^ (gfMul 0 ((sliceDS data 2).getD p 0) ^^^
        (gfMul 0 ((sliceDS data 3).getD p 0) ^^^ 0)))
    rw [gfMul_one_left _ hb0, gfMul_zero_left, gfMul_zero_left, gfMul_zero_left]
    simp
  · show (sliceDS data 1).getD p 0 = gfMul 0 ((sliceDS data 0).getD p 0) ^^^
      (gfMul 1 ((sliceDS data 1).getD p 0) ^^^ (gfMul 0 ((sliceDS data 2).getD p 0) ^^^
        (gfMul 0 ((sliceDS data 3).getD p 0) ^^^ 0)))
    rw [gfMul_one_left _ hb1, gfMul_zero_left, gfMul_zero_left, gfMul_zero_left]
    simp
  · show (sliceDS data 2).getD p 0 = gfMul 0 ((sliceDS data 0).getD p 0) ^^^
      (gfMul 0 ((sliceDS data 1).getD p 0) ^^^ (gfMul 1 ((sliceDS data 2).getD p 0) ^^^
        (gfMul 0 ((sliceDS data 3).getD p 0) ^^^ 0)))
    rw [gfMul_one_left _ hb2, gfMul_zero_left, gfMul_zero_left, gfMul_zero_left]
    simp
  · show (sliceDS data 3).getD p 0 = gfMul 0 ((sliceDS data 0).getD p 0) ^^^
      (gfMul 0 ((sliceDS data 1).getD p 0) ^^^ (gfMul 0 ((sliceDS data 2).getD p 0) ^^^
        (gfMul 1 ((sliceDS data 3).getD p 0) ^^^ 0)))
    rw [gfMul_one_left _ hb3, gfMul_zero_left, gfMul_zero_left, gfMul_zero_left]
    simp
  · exact applyRow_getD _ _ _ _ hp
  · exact applyRow_getD _ _ _ _ hp

theorem encode_shard_length (data : List Nat) (i : Nat) (hi : i < 6) :
    ((encode_shards data).getD i []).length = lenOf data := by
  rw [encode_shards_eq]
  interval_cases i
  · exact sliceDS_length data 0 (by omega)
  · exact sliceDS_length data 1 (by omega)
  · exact sliceDS_length data 2 (by omega)
  · exact sliceDS_length data 3 (by omega)
  · exact applyRow_length _ _ _
  · exact applyRow_length _ _ _

theorem map_range_getD (l : List Nat) (L : Nat) (h : l.length = L) :
    (List.range L).map (fun p => l.getD p 0) = l := by
  subst h
  apply List.ext_getElem
  · simp
  · intro i h1 h2
    simp only [List.getElem_map, List.getElem_range]
    exact List.getD_eq_getElem l 0 h2

theorem range_total : List.range TOTAL_SHARDS = [0, 1, 2, 3, 4, 5] := rfl

theorem range_data : List.range DATA_SHARDS = [0, 1, 2, 3] := rfl

theorem maskShards_getD (keep : List Nat) (shards : List (List Nat)) (i : Nat) (hi : i < 6) :
    (maskShards keep shards).getD i none =
      if i ∈ keep then some (shards.getD i []) else none := by
  unfold maskShards
  rw [range_total]
  simp only [List.map_cons, List.map_nil]
  interval_cases i <;> rfl

theorem take_four_map_range6 (f : Nat → List Nat) :
    ((List.range TOTAL_SHARDS).map f).take 4 = [f 0, f 1, f 2, f 3] := rfl

set_option maxHeartbeats 1000000 in
theorem core_roundtrip (keep data : List Nat) (hbytes : ∀ b ∈ data, b < 256)
    (hk : 4 ≤ ((List.range 6).filter (fun i => i ∈ keep)).length) :
    ∃ rec, reconstructShards (maskShards keep (encode_shards data)) = some rec ∧
      (rec.take 4).flatten = pad_data data DATA_SHARDS ∧
      ((rec.take 4).flatten).take data.length = data := by
  have hFmem := filter_take4_subsets15 keep hk
  obtain ⟨a, b, c, d, hF4⟩ := length4_shape
    (((List.range 6).filter (fun i => i ∈ keep)).take 4) (by rw [List.length_take]; omega)
  rw [hF4] at hFmem
  have hshape := subsets15_shape _ hFmem
  have ha6 : a < 6 := hshape.2.2 a (by simp)
  have hb6 : b < 6 := hshape.2.2 b (by simp)
  have hc6 : c < 6 := hshape.2.2 c (by simp)
  have hd6 : d < 6 := hshape.2.2 d (by simp)
  obtain ⟨hinv, hdmlen, hunit⟩ := subset_recover [a, b, c, d] hFmem
  obtain ⟨r0, r1, r2, r3, hdm4⟩ := length4_shape (invOf [a, b, c, d]) hdmlen
  rw [hdm4] at hinv hunit
  simp only [decodeOf, List.map_cons, List.map_nil] at hinv
  -- byte-level facts
  have hcol : ∀ p, p < lenOf data →
      colAt [(encode_shards data).getD a [], (encode_shards data).getD b [],
        (encode_shards data).getD c [], (encode_shards data).getD d []] p =
      matVec (decodeOf [a, b, c, d]) (colAt (dsOf data) p) := by
    intro p hp
    show [((encode_shards data).getD a []).getD p 0, ((encode_shards data).getD b []).getD p 0,
      ((encode_shards data).getD c []).getD p 0, ((encode_shards data).getD d []).getD p 0] = _
    rw [encode_byte data hbytes a p ha6 hp, encode_byte data hbytes b p hb6 hp,
      encode_byte data hbytes c p hc6 hp, encode_byte data hbytes d p hd6 hp]
    rfl
  have hrec : ∀ j, j < 4 →
      applyRow (rowGet [r0, r1, r2, r3] j)
        [(encode_shards data).getD a [], (encode_shards data).getD b [],
         (encode_shards data).getD c [], (encode_shards data).getD d []] (lenOf data) =
      sliceDS data j := by
    intro j hj
    rw [← map_range_getD (sliceDS data j) (lenOf data) (sliceDS_length data j hj)]
    unfold applyRow
    apply List.map_congr_left
    intro p hp
    have hp' : p < lenOf data := List.mem_range.1 hp
    rw [hcol p hp', colAt_dsOf]
    have hw0 := sliceDS_byte_lt data hbytes 0 p (by omega) hp'
    have hw1 := sliceDS_byte_lt data hbytes 1 p (by omega) hp'
    have hw2 := sliceDS_byte_lt data hbytes 2 p (by omega) hp'
    have hw3 := sliceDS_byte_lt data hbytes 3 p (by omega) hp'
    have hvec := recover_vec [a, b, c, d] [r0, r1, r2, r3] hunit
      ((sliceDS data 0).getD p 0) ((sliceDS data 1).getD p 0)
      ((sliceDS data 2).getD p 0) ((sliceDS data 3).getD p 0) hw0 hw1 hw2 hw3
    simp only [matVec, List.map_cons, List.map_nil, List.cons.injEq, and_true] at hvec
    interval_cases j
    · exact hvec.1
    · exact hvec.2.1
    · exact hvec.2.2.1
    · exact hvec.2.2.2
  -- open up the reconstruction
  unfold reconstructShards
  rw [presentEntries_mask]
  dsimp only
  rw [if_neg (by rw [List.length_map]; simp only [DATA_SHARDS]; omega)]
  simp only [DATA_SHARDS]
  rw [← List.map_take, hF4]
  simp only [List.map_cons, List.map_nil, List.headD_cons]
  rw [hinv]
  simp only [Option.map_some']
  simp only [encode_shard_length data a ha6, show List.range 4 = [0, 1, 2, 3] from rfl,
    List.map_cons, List.map_nil,
    hrec 0 (by omega), hrec 1 (by omega), hrec 2 (by omega), hrec 3 (by omega)]
  have hel : ∀ i, i < 4 → ((maskShards keep (encode_shards data)).getD i none).getD
      (if i < 4 then
        [sliceDS data 0, sliceDS data 1, sliceDS data 2, sliceDS data 3].getD i []
      else applyRow (rowGet encMatrix i)
        [sliceDS data 0, sliceDS data 1, sliceDS data 2, sliceDS data 3] (lenOf data)) =
      sliceDS data i := by
    intro i hi
    rw [maskShards_getD keep _ i (by omega), if_pos hi]
    by_cases h : i ∈ keep
    · rw [if_pos h, Option.getD_some, encode_shards_eq]
      interval_cases i <;> rfl
    · rw [if_neg h, Option.getD_none]
      interval_cases i <;> rfl
  have hflat : sliceDS data 0 ++ (sliceDS data 1 ++ (sliceDS data 2 ++ (sliceDS data 3 ++ []))) =
      pad_data data DATA_SHARDS := by
    have h := flatten_dsOf data
    unfold dsOf at h
    rw [range_data] at h
    simp only [List.map_cons, List.map_nil, List.flatten_cons, List.flatten_nil] at h
    exact h
  refine ⟨_, rfl, ?_, ?_⟩
  · rw [take_four_map_range6]
    simp only [List.flatten_cons, List.flatten_nil]
    rw [hel 0 (by omega), hel 1 (by omega), hel 2 (by omega), hel 3 (by omega)]
    simpa [DATA_SHARDS] using hflat
  · rw [take_four_map_range6]
    simp only [List.flatten_cons, List.flatten_nil]
    rw [hel 0 (by omega), hel 1 (by omega), hel 2 (by omega), hel 3 (by omega), hflat]
    exact pad_data_take data DATA_SHARDS

theorem bufGet_bufSet (st : Buffer) (f : String) (m : ShardMap) :
    bufGet (bufSet st f m) f = m := by
  induction st with
  | nil => simp [bufSet, bufGet]
  | cons e t ih =>
    by_cases h : e.1 = f
    · simp [bufSet, bufGet, h]
    · simp [bufSet, bufGet, h, ih]

theorem mapInsert_mem (i : Nat) (v : List Nat) (m : ShardMap) :
    (i, v) ∈ mapInsert i v m := by
  induction m with
  | nil => simp [mapInsert]
  | cons e t ih =>
    by_cases h : e.1 = i
    · simp [mapInsert, h]
    · simp [mapInsert, h]
      right
      exact ih

theorem fillShards_oob (m : ShardMap) (e : Nat × List Nat) (hmem : e ∈ m)
    (hbad : ¬ e.1 < TOTAL_SHARDS) : fillShards m = none := by
  have hnone : ∀ t : ShardMap, t.foldl
      (fun (acc : Option (List (Option (List Nat)))) e2 =>
        acc.bind fun v => if e2.1 < TOTAL_SHARDS then some (v.set e2.1 (some e2.2)) else none)
      none = none := by
    intro t
    induction t with
    | nil => rfl
    | cons x r ih => simpa using ih
  have key : ∀ (t : ShardMap) (acc : Option (List (Option (List Nat)))), e ∈ t →
      t.foldl (fun (acc : Option (List (Option (List Nat)))) e2 =>
        acc.bind fun v => if e2.1 < TOTAL_SHARDS then some (v.set e2.1 (some e2.2)) else none)
        acc = none := by
    intro t
    induction t with
    | nil => intro acc h; simp at h
    | cons x r ih =>
      intro acc h
      rcases List.mem_cons.1 h with h1 | h2
      · subst h1
        rw [List.foldl_cons]
        cases acc <;> simpa [hbad] using hnone r
      · rw [List.foldl_cons]
        exact ih _ h2
  exact key m _ hmem

/-- Claim C3: for every accumulated shard set holding fewer than k = 4
distinct indices, reconstruction is never attempted (the validator only
inserts, emits no event, and writes no file), and the engine itself fails
on fewer than k present shards, producing no partial output. -/
theorem C3_threshold (hash : List Nat → String) (st : Buffer) (f : String)
    (olen idx : Nat) (d : List Nat) (chk : String)
    (hlt : (mapInsert idx d (bufGet st f)).length < DATA_SHARDS) :
    stepMsg hash st (P2PMessage.DasShard f olen idx d chk) =
      some (bufSet st f (mapInsert idx d (bufGet st f)), []) ∧
    ∀ shards : List (Option (List Nat)),
      (presentEntries shards).length < DATA_SHARDS → reconstructShards shards = none := by
  constructor
  · unfold stepMsg
    dsimp only
    rw [if_neg (by omega)]
  · intro shards hsh
    unfold reconstructShards
    dsimp only
    rw [if_pos hsh]

/-- Claim C3 witness. -/
theorem C3_threshold_witness :
    (mapInsert 2 [9] (bufGet [("f", [(0, [1])])] "f")).length < DATA_SHARDS ∧
    stepMsg (fun _ => "h") [("f", [(0, [1])])] (P2PMessage.DasShard "f" 4 2 [9] "h") =
      some (bufSet [("f", [(0, [1])])] "f" (mapInsert 2 [9] (bufGet [("f", [(0, [1])])] "f")), []) ∧
    reconstructShards [some [1], none, some [9], none, none, none] = none := by
  have h := C3_threshold (fun _ => "h") [("f", [(0, [1])])] "f" 4 2 [9] "h" (by decide)
  exact ⟨by decide, h.1, h.2 _ (by decide)⟩

/-- Claim C10: the validator inserts the wire-supplied shard index without
any range check; once the per-filename map reaches k = 4 entries, the fill
loop writes each payload at position `index` into a 6-slot vector, so a
stored index at or above 6 makes the reconstruction step an out-of-bounds
write: a panic (`none`), not a reported error. -/
theorem C10_oob_panic (hash : List Nat → String) (st : Buffer) (f : String)
    (olen idx : Nat) (d : List Nat) (chk : String) (hidx : 6 ≤ idx)
    (hth : DATA_SHARDS ≤ (mapInsert idx d (bufGet st f)).length) :
    stepMsg hash st (P2PMessage.DasShard f olen idx d chk) = none := by
  unfold stepMsg
  dsimp only
  rw [if_pos hth,
    fillShards_oob (mapInsert idx d (bufGet st f)) (idx, d) (mapInsert_mem idx d _)
      (by simp only [TOTAL_SHARDS, DATA_SHARDS, PARITY_SHARDS]; omega)]
  rfl

/-- Claim C10 witness. -/
theorem C10_oob_panic_witness :
    6 ≤ 9 ∧ DATA_SHARDS ≤ (mapInsert 9 [7] (bufGet [("f", [(0, [1]), (1, [2]), (2, [3])])] "f")).length ∧
    stepMsg (fun _ => "h") [("f", [(0, [1]), (1, [2]), (2, [3])])]
      (P2PMessage.DasShard "f" 4 9 [7] "h") = none :=
  ⟨by decide, by decide,
    C10_oob_panic (fun _ => "h") [("f", [(0, [1]), (1, [2]), (2, [3])])] "f" 4 9 [7] "h"
      (by decide) (by decide)⟩

/-- Claim C2 (amended): when the reconstruction attempt's decode succeeds
but the recomputed checksum of the truncated result differs from the
declared checksum, the accumulated shard map for that filename is
CLEARED, not retained (`map.clear()` runs on every successful decode,
before the checksum outcome is known); only an outright decode failure
leaves the entry in place. -/
theorem C2_amended (hash : List Nat → String) (st : Buffer) (f : String)
    (olen idx : Nat) (d : List Nat) (chk : String)
    (hth : DATA_SHARDS ≤ (mapInsert idx d (bufGet st f)).length)
    (sh : List (Option (List Nat)))
    (hfill : fillShards (mapInsert idx d (bufGet st f)) = some sh)
    (rc : List (List Nat)) (hrc : reconstructShards sh = some rc)
    (holen : olen ≤ ((rc.take DATA_SHARDS).flatten).length)
    (hmis : hash (((rc.take DATA_SHARDS).flatten).take olen) ≠ chk) :
    stepMsg hash st (P2PMessage.DasShard f olen idx d chk) =
      some (bufSet (bufSet st f (mapInsert idx d (bufGet st f))) f [],
        [Event.reconAttempt f]) ∧
    bufGet (bufSet (bufSet st f (mapInsert idx d (bufGet st f))) f []) f = [] := by
  constructor
  · unfold stepMsg
    dsimp only
    rw [if_pos hth, hfill]
    simp only [Option.some_bind]
    rw [hrc]
    simp only [Option.elim_some]
    rw [if_pos holen, if_neg hmis]
  · exact bufGet_bufSet _ _ _

/-- Claim C2 witness for the amended statement: three data shards of the
encoding of `[1,2,3,4]` are accumulated, the fourth arrives with a
declared checksum `"x"` while the digest function returns `"h"`; decode
succeeds, the checksum mismatches, and the entry ends up empty. -/
theorem C2_amended_witness :
    stepMsg (fun _ => "h") [("f", [(0, [1]), (1, [2]), (2, [3])])]
      (P2PMessage.DasShard "f" 4 3 [4] "x") =
      some ([("f", [])], [Event.reconAttempt "f"]) := by
  have h := C2_amended (fun _ => "h") [("f", [(0, [1]), (1, [2]), (2, [3])])]
    "f" 4 3 [4] "x" (by decide)
    [some [1], some [2], some [3], some [4], none, none] (by decide)
    [[1], [2], [3], [4], [69], [94]] (by decide) (by decide) (by decide)
  rw [h.1]
  rfl

/-- Claim C2 counterexample: at a concrete input where the decode succeeds
and the recomputed checksum (`"h"`) differs from the declared one (`"x"`),
the claim's assertion that the shard map is retained is false: the
resulting entry for `"f"` is the empty map, not the accumulated four-shard
map. -/
theorem C2_counterexample :
    (fun (_ : List Nat) => "h")
        ((([[1],[2],[3],[4],[69],[94]] : List (List Nat)).take DATA_SHARDS).flatten.take 4) ≠
      "x" ∧
    (stepMsg (fun _ => "h") [("f", [(0, [1]), (1, [2]), (2, [3])])]
      (P2PMessage.DasShard "f" 4 3 [4] "x")).map (fun r => bufGet r.1 "f") = some [] := by
  decide

/-- Claim C5 (amended): a non-blank line that fails to parse ends the read
loop with an error, the connection is not retried, and blank lines are
skipped with no effect - but the failure is NOT connection-scoped: the
`?` operator propagates the error out of `run_validator`, so the
validator stops accepting any subsequent connection. -/
theorem C5_amended (hash : List Nat → String) (st : Buffer) :
    (∀ rest, runLines hash st (LineItem.blank :: rest) = runLines hash st rest) ∧
    (∀ rest, runLines hash st (LineItem.malformed :: rest) = ConnResult.parseErr st []) ∧
    (∀ lines st1 evs cs, runLines hash st lines = ConnResult.parseErr st1 evs →
      run_validator hash st (lines :: cs) = VResult.errored (Event.secured :: evs)) := by
  refine ⟨fun rest => rfl, fun rest => rfl, ?_⟩
  intro lines st1 evs cs h
  unfold run_validator runConn
  rw [h]

/-- Claim C5 witness: a malformed first line errors the whole validator,
regardless of the pending second connection. -/
theorem C5_amended_witness :
    runLines (fun _ => "h") [] [LineItem.malformed] = ConnResult.parseErr [] [] ∧
    run_validator (fun _ => "h") [] ([LineItem.malformed] ::
      [[LineItem.msg (P2PMessage.NaiveTransfer "g" [1] "h")]]) =
      VResult.errored [Event.secured] :=
  ⟨rfl, (C5_amended (fun _ => "h") []).2.2 [LineItem.malformed] [] []
    [[LineItem.msg (P2PMessage.NaiveTransfer "g" [1] "h")]] rfl⟩

/-- Claim C5 counterexample: the claim says the validator continues
accepting subsequent connections after a parse failure.  At this concrete
input a malformed line on the first connection is followed by a valid
naive transfer on a second connection; the validator ends in the errored
state and never writes the second connection's file. -/
theorem C5_counterexample :
    run_validator (fun _ => "h") [] [[LineItem.malformed],
      [LineItem.msg (P2PMessage.NaiveTransfer "g" [1] "h")]] = VResult.errored [Event.secured] ∧
    Event.fileWrite (String.append "recv_" "g") [1] ∉
      (run_validator (fun _ => "h") [] [[LineItem.malformed],
        [LineItem.msg (P2PMessage.NaiveTransfer "g" [1] "h")]]).events := by
  constructor
  · rfl
  · intro hmem
    simp only [show run_validator (fun _ => "h") [] [[LineItem.malformed],
      [LineItem.msg (P2PMessage.NaiveTransfer "g" [1] "h")]] = VResult.errored [Event.secured]
      from rfl] at hmem
    simp [VResult.events] at hmem

/-- Claim C6: on every connection each peer sends exactly one Handshake -
carrying its public key, a signature over the timestamp bytes, and the
timestamp - before any payload message; the validator never verifies the
counterpart's handshake (processing it changes nothing and admits all
later payloads), and the session is reported secured unconditionally,
before any line is even read. -/
theorem C6_handshake (hash : List Nat → String) (id : Identity) (fn : String)
    (data : List Nat) (mode : ResearchMode) (perm : List Nat) :
    (run_proposer hash id fn data mode perm).head? =
      some (P2PMessage.Handshake id.pubkey (id.sign (u64BeBytes 1000)) 1000) ∧
    (run_proposer hash id fn data mode perm).countP isHandshake = 1 ∧
    (∀ st pk sg ts, stepMsg hash st (P2PMessage.Handshake pk sg ts) = some (st, [])) ∧
    (∀ st lines, ∃ evs, (runConn hash st lines).events = Event.secured :: evs) := by
  refine ⟨rfl, ?_, fun st pk sg ts => rfl, ?_⟩
  · unfold run_proposer
    rw [List.countP_cons_of_pos _ _ (by rfl)]
    cases mode
    · rfl
    · simp only [List.countP_map]
      rw [List.countP_eq_zero.2 (fun x _ => by simp [Function.comp, isHandshake])]
    · simp only [List.countP_map]
      rw [List.countP_eq_zero.2 (fun x _ => by simp [Function.comp, isHandshake])]
  · intro st lines
    unfold runConn
    cases hr : runLines hash st lines
    · exact ⟨_, rfl⟩
    · exact ⟨_, rfl⟩
    · exact ⟨_, rfl⟩

/-- Claim C8: in full-reconstruction mode the proposer sends exactly k = 4
DasShard messages with pairwise-distinct indices, the first 4 of the
shuffled index permutation; in sampling mode exactly 2 (below threshold);
in both modes every DasShard carries the same filename, the blob's
original length, and the full-blob checksum. -/
theorem C8_proposer_sends (hash : List Nat → String) (id : Identity) (fn : String)
    (data : List Nat) (perm : List Nat) (hperm : perm.Perm (List.range TOTAL_SHARDS)) :
    (run_proposer hash id fn data ResearchMode.dasFull perm =
      perform_handshake id :: (perm.take 4).map (fun i =>
        P2PMessage.DasShard fn data.length i ((encode_shards data).getD i []) (hash data)) ∧
     (perm.take 4).length = 4 ∧ (perm.take 4).Nodup) ∧
    (run_proposer hash id fn data ResearchMode.dasSample perm =
      perform_handshake id :: (perm.take 2).map (fun i =>
        P2PMessage.DasShard fn data.length i ((encode_shards data).getD i []) (hash data)) ∧
     (perm.take 2).length = 2 ∧ (perm.take 2).Nodup ∧ 2 < DATA_SHARDS) := by
  have hlen : perm.length = 6 := by
    have := hperm.length_eq
    simpa [range_total] using this
  have hnd : perm.Nodup := (hperm.nodup_iff).2 (List.nodup_range _)
  refine ⟨⟨rfl, ?_, hnd.sublist (List.take_sublist _ _)⟩,
    rfl, ?_, hnd.sublist (List.take_sublist _ _), by simp [DATA_SHARDS]⟩
  · rw [List.length_take]; omega
  · rw [List.length_take]; omega

/-- Claim C8 witness at the identity permutation. -/
theorem C8_proposer_sends_witness :
    ([0, 1, 2, 3, 4, 5] : List Nat).Perm (List.range TOTAL_SHARDS) ∧
    run_proposer (fun _ => "h") ⟨[], fun _ => []⟩ "f" [9] ResearchMode.dasSample [0,1,2,3,4,5] =
      perform_handshake ⟨[], fun _ => []⟩ :: ([0, 1].map (fun i =>
        P2PMessage.DasShard "f" 1 i ((encode_shards [9]).getD i []) "h")) := by
  have hp : ([0, 1, 2, 3, 4, 5] : List Nat).Perm (List.range TOTAL_SHARDS) := by
    rw [range_total]
  have h := C8_proposer_sends (fun _ => "h") ⟨[], fun _ => []⟩ "f" [9] [0,1,2,3,4,5] hp
  exact ⟨hp, h.2.1⟩

theorem lightReport_count_zero (t : Buffer) (f : String)
    (hf : ∀ e ∈ t, e.1 ≠ f) : (lightReport t).count (Event.availability f) = 0 := by
  induction t with
  | nil => rfl
  | cons e r ih =>
    have hne : e.1 ≠ f := hf e (by simp)
    have ihr := ih (fun x hx => hf x (by simp [hx]))
    unfold lightReport at *
    rw [List.filter_cons]
    split
    · rw [List.map_cons, List.count_cons]
      rw [ihr]
      simp [hne]
    · exact ihr

/-- Claim C9: when a connection's read loop ends, every filename whose
accumulated entry is non-empty yet below threshold gets exactly one
availability report; in particular a validator that received exactly two
shards for one filename reports availability exactly once and neither
attempts nor reports any reconstruction. -/
theorem C9_sampling (hash : List Nat → String) :
    (∀ st : Buffer, (st.map Prod.fst).Nodup → ∀ f m, (f, m) ∈ st → 0 < m.length →
      m.length < DATA_SHARDS → (lightReport st).count (Event.availability f) = 1) ∧
    (∀ f o1 o2 i1 i2 d1 d2 c1 c2, i1 ≠ i2 →
      runConn hash [] [LineItem.msg (P2PMessage.DasShard f o1 i1 d1 c1),
        LineItem.msg (P2PMessage.DasShard f o2 i2 d2 c2)] =
      ConnResult.ok [(f, [(i1, d1), (i2, d2)])] [Event.secured, Event.availability f]) := by
  constructor
  · intro st
    induction st with
    | nil => intro _ f m hm; simp at hm
    | cons e t ih =>
      intro hnd f m hmem h0 h4
      have hnd' : (t.map Prod.fst).Nodup := (List.nodup_cons.1 hnd).2
      have hout : e.1 ∉ t.map Prod.fst := (List.nodup_cons.1 hnd).1
      rcases List.mem_cons.1 hmem with he | ht
      · subst he
        unfold lightReport
        rw [List.filter_cons, if_pos (by
          cases m with
          | nil => simp at h0
          | cons y mt =>
            simp only [List.isEmpty_cons, Bool.not_false, Bool.true_and, decide_eq_true_eq]
            exact h4)]
        rw [List.map_cons, List.count_cons]
        have hz : (lightReport t).count (Event.availability f) = 0 := by
          apply lightReport_count_zero
          intro x hx hx1
          apply hout
          have hme := List.mem_map_of_mem Prod.fst hx
          rw [hx1] at hme
          simpa using hme
        unfold lightReport at hz
        rw [hz]
        simp
      · have hef : e.1 ≠ f := by
          intro hef
          exact hout (hef ▸ List.mem_map_of_mem Prod.fst ht)
        have ihr := ih hnd' f m ht h0 h4
        unfold lightReport at ihr ⊢
        rw [List.filter_cons]
        split
        · rw [List.map_cons, List.count_cons, ihr]
          simp [hef]
        · exact ihr
  · intro f o1 o2 i1 i2 d1 d2 c1 c2 h12
    simp [runConn, runLines, stepMsg, bufGet, bufSet, mapInsert, lightReport, h12, DATA_SHARDS]

/-- Claim C9 witness: two shards for one filename, then connection end. -/
theorem C9_sampling_witness :
    (lightReport [("f", [(0, [1]), (2, [3])])]).count (Event.availability "f") = 1 ∧
    runConn (fun _ => "h") [] [LineItem.msg (P2PMessage.DasShard "f" 4 0 [1] "h"),
      LineItem.msg (P2PMessage.DasShard "f" 4 2 [3] "h")] =
      ConnResult.ok [("f", [(0, [1]), (2, [3])])] [Event.secured, Event.availability "f"] := by
  have h := C9_sampling (fun _ => "h")
  exact ⟨h.1 [("f", [(0, [1]), (2, [3])])] (by decide) "f" [(0, [1]), (2, [3])]
      (by decide) (by decide) (by decide),
    h.2 "f" 4 4 0 2 [1] [3] "h" "h" (by decide)⟩

/-- Claim C1: for every byte blob and every subset of exactly k = 4
distinct indices out of the n = 6 shards produced by encode,
reconstructing from exactly that subset and truncating to the blob's
original length yields the original blob - for all C(6,4) subsets, since
`keep` ranges over every 4-element subset of `{0,...,5}`. -/
theorem C1_roundtrip (keep data : List Nat) (hbytes : ∀ x ∈ data, x < 256)
    (hnd : keep.Nodup) (hlen : keep.length = 4) (hsub : ∀ i ∈ keep, i < 6) :
    ∃ rec, reconstructShards (maskShards keep (encode_shards data)) = some rec ∧
      ((rec.take 4).flatten).take data.length = data := by
  have hsp : keep.Subperm ((List.range 6).filter (fun i => i ∈ keep)) := by
    apply List.Nodup.subperm hnd
    intro i hi
    rw [List.mem_filter]
    exact ⟨List.mem_range.2 (hsub i hi), by simpa using hi⟩
  have hk : 4 ≤ ((List.range 6).filter (fun i => i ∈ keep)).length := by
    have := hsp.length_le
    omega
  obtain ⟨rec, h1, _, h3⟩ := core_roundtrip keep data hbytes hk
  exact ⟨rec, h1, h3⟩

/-- Claim C1 witness: the blob `[1,2,3,4,5,6,7,8]` and the subset
`{1,3,4,5}` (one data shard lost, both parities used). -/
theorem C1_roundtrip_witness :
    (∀ x ∈ ([1,2,3,4,5,6,7,8] : List Nat), x < 256) ∧
    ∃ rec, reconstructShards (maskShards [1,3,4,5] (encode_shards [1,2,3,4,5,6,7,8])) =
        some rec ∧ ((rec.take 4).flatten).take 8 = [1,2,3,4,5,6,7,8] :=
  ⟨by decide, C1_roundtrip [1,3,4,5] [1,2,3,4,5,6,7,8] (by decide) (by decide) (by decide)
    (by decide)⟩

/-- Claim C4: for each payload size in `{0, 1, Lshard-1, Lshard, Lshard+1,
10*Lshard}` bytes, the encode-then-reconstruct-then-truncate pipeline
completes without crashing (reconstruction returns a value) and produces a
blob whose checksum equals the original blob's checksum, for any digest
function - the reconstructed bytes equal the original bytes. -/
theorem C4_checksum_gate (hash : List Nat → String) (Lsh : Nat) (data : List Nat)
    (hbytes : ∀ x ∈ data, x < 256)
    (hsize : data.length ∈ [0, 1, Lsh - 1, Lsh, Lsh + 1, 10 * Lsh]) :
    ∃ rec, reconstructShards (maskShards [0,1,2,3,4,5] (encode_shards data)) = some rec ∧
      ((rec.take 4).flatten).take data.length = data ∧
      hash (((rec.take 4).flatten).take data.length) = hash data := by
  obtain ⟨rec, h1, _, h3⟩ := core_roundtrip [0,1,2,3,4,5] data hbytes (by decide)
  exact ⟨rec, h1, h3, by rw [h3]⟩

/-- Claim C4 witness at the boundary sizes for Lshard = 2 (sizes 1, 2, 3
arise from blobs of 1 to 3 bytes; size 0 and 8 = 4*Lshard likewise): shown
at size 0 (the empty blob). -/
theorem C4_checksum_gate_witness :
    (([] : List Nat).length ∈ [0, 1, 2 - 1, 2, 2 + 1, 10 * 2]) ∧
    ∃ rec, reconstructShards (maskShards [0,1,2,3,4,5] (encode_shards [])) = some rec ∧
      ((rec.take 4).flatten).take 0 = ([] : List Nat) ∧
      (fun l : List Nat => toString l) (((rec.take 4).flatten).take 0) =
        (fun l : List Nat => toString l) ([] : List Nat) :=
  ⟨by decide, C4_checksum_gate (fun l => toString l) 2 [] (by decide) (by decide)⟩

/-- Claim C7: for every input and every positive divisor `k`, `pad_data`
returns the input extended by zeros to the smallest multiple of `k` at
least the input's length, leaving the first bytes unchanged; consequently
each of the k = 4 data shards of `encode_shards` has length
`padded_length / k`. -/
theorem C7_padding (data : List Nat) (k : Nat) (hk : 0 < k) :
    ((pad_data data k).length % k = 0 ∧
     data.length ≤ (pad_data data k).length ∧
     (∀ M, data.length ≤ M → M % k = 0 → (pad_data data k).length ≤ M)) ∧
    (pad_data data k).take data.length = data ∧
    (∀ x ∈ (pad_data data k).drop data.length, x = 0) ∧
    (∀ i < DATA_SHARDS, ((encode_shards data).getD i []).length =
      (pad_data data DATA_SHARDS).length / DATA_SHARDS) := by
  refine ⟨⟨pad_data_length_mod data k hk, pad_data_le data k, ?_⟩,
    pad_data_take data k, ?_, ?_⟩
  · intro M hLM hMk
    unfold pad_data
    dsimp only
    split
    · next hne =>
      rw [List.length_append, List.length_replicate]
      obtain ⟨q, hq⟩ : k ∣ M := Nat.dvd_of_mod_eq_zero hMk
      obtain ⟨p, hp⟩ : ∃ p, data.length = k * p + data.length % k :=
        ⟨data.length / k, (Nat.div_add_mod _ _).symm⟩
      have hrk : data.length % k < k := Nat.mod_lt _ hk
      subst hq
      have hpq : p < q := by
        by_contra hc
        push_neg at hc
        have := Nat.mul_le_mul_left k hc
        omega
      have hstep : k * (p + 1) ≤ k * q := Nat.mul_le_mul_left k hpq
      rw [Nat.mul_add, Nat.mul_one] at hstep
      omega
    · omega
  · intro x hx
    unfold pad_data at hx
    dsimp only at hx
    by_cases h : data.length % k ≠ 0
    · rw [if_pos h, List.drop_left] at hx
      exact List.eq_of_mem_replicate hx
    · rw [if_neg h, List.drop_length] at hx
      simp at hx
  · intro i hi
    exact encode_shard_length data i (by
      simp only [DATA_SHARDS] at hi
      omega)

/-- Claim C7 witness at `data = [1,2,3]`, `k = 4`. -/
theorem C7_padding_witness :
    (0 : Nat) < 4 ∧ (pad_data [1,2,3] 4).length % 4 = 0 ∧
      (pad_data [1,2,3] 4).take 3 = [1,2,3] :=
  ⟨by decide, (C7_padding [1,2,3] 4 (by decide)).1.1, (C7_padding [1,2,3] 4 (by decide)).2.1⟩
